import Mathlib

/-!
# Verification of the SMOTE synthetic-data notebook

A shallow embedding of the synthetic-data generation pipeline of the
`30_synthetic_data_SMOTE` notebook: SMOTE-style class-wise interpolation,
feature-type repair (one-hot collapse, integer rounding, binary clip-round),
novelty filtering against the real data, and per-class rebalancing.

Numeric values are modelled as exact rationals (`ℚ`); Euclidean distances are
carried as *squared* distances (exact in `ℚ`), since `x < t` for the true
distance is equivalent to `x² < t²` for nonnegative `t`.  Stateful pandas
operations become explicit list transformations; every random choice made by
the library calls (`SMOTE`, `DataFrame.sample`) becomes an explicit stream
argument, since the notebook passes no seed anywhere.
-/

set_option allowUnsafeReducibility true

attribute [local semireducible] Rat.add Rat.mul Rat.sub Rat.div Rat.neg Rat.inv
  Rat.floor Rat.ofScientific

namespace SmoteSynth

/-- A feature vector: one rational per declared feature column. -/
abbrev Vec := List ℚ

/-- Squared Euclidean distance between two feature vectors. -/
def distSq (p q : Vec) : ℚ := (p.zipWith (fun a b => (a - b) ^ 2) q).sum

/-! ## np.argmax and make_one_hot (Feature-Type Repair, one-hot stage) -/

/-- The maximum value of a list of rationals (`np.max`); `0` for `[]`. -/
def maxOf : List ℚ → ℚ
  | [] => 0
  | a :: as => as.foldl max a

/-- `np.argmax`: the index of the *first* occurrence of the maximum value. -/
def argmaxIdx (x : List ℚ) : ℕ := x.findIdx (fun a => decide (a = maxOf x))

/-- `make_one_hot` from the notebook: find `np.argmax`, multiply every entry
by zero (`x *= 0.0`), then set the argmax position to one (`x[highest] = 1.0`).
This is the value computed; the in-place effect is modelled by
`make_one_hot_ref` below. -/
def make_one_hot (x : List ℚ) : List ℚ :=
  (x.map (fun a => a * 0)).set (argmaxIdx x) 1

theorem le_foldl_max (a : ℚ) (l : List ℚ) : a ≤ l.foldl max a := by
  induction l generalizing a with
  | nil => simp
  | cons b bs ih => exact le_trans (le_max_left a b) (ih _)

theorem mem_le_foldl_max {c : ℚ} (a : ℚ) {l : List ℚ} (h : c ∈ l) :
    c ≤ l.foldl max a := by
  induction l generalizing a with
  | nil => cases h
  | cons b bs ih =>
    rcases List.mem_cons.mp h with rfl | h
    · exact le_trans (le_max_right a c) (le_foldl_max _ _)
    · exact ih _ h

theorem foldl_max_mem (a : ℚ) (l : List ℚ) :
    l.foldl max a = a ∨ l.foldl max a ∈ l := by
  induction l generalizing a with
  | nil => simp
  | cons b bs ih =>
    rcases ih (max a b) with h | h
    · rcases max_choice a b with hm | hm
      · exact Or.inl (by rw [List.foldl_cons, h, hm])
      · exact Or.inr (by rw [List.foldl_cons, h, hm]; exact List.mem_cons_self _ _)
    · exact Or.inr (List.mem_cons_of_mem _ h)

theorem maxOf_mem {x : List ℚ} (h : x ≠ []) : maxOf x ∈ x := by
  match x with
  | a :: as =>
    rcases foldl_max_mem a as with hm | hm
    · rw [maxOf, hm]; exact List.mem_cons_self _ _
    · exact List.mem_cons_of_mem _ hm

theorem le_maxOf {c : ℚ} {x : List ℚ} (h : c ∈ x) : c ≤ maxOf x := by
  match x with
  | a :: as =>
    rcases List.mem_cons.mp h with rfl | h
    · exact le_foldl_max _ _
    · exact mem_le_foldl_max _ h

theorem argmaxIdx_lt_length {x : List ℚ} (h : x ≠ []) : argmaxIdx x < x.length :=
  List.findIdx_lt_length_of_exists ⟨maxOf x, maxOf_mem h, by simp⟩

theorem getElem_argmaxIdx {x : List ℚ} (h : x ≠ []) :
    x.get ⟨argmaxIdx x, argmaxIdx_lt_length h⟩ = maxOf x := by
  have h2 := @List.findIdx_getElem _ (fun a => decide (a = maxOf x)) x
    (argmaxIdx_lt_length h)
  simpa [argmaxIdx, List.get_eq_getElem] using h2

theorem getElem_lt_argmaxIdx {x : List ℚ} {i : ℕ} (hi : i < argmaxIdx x)
    (hlen : i < x.length) :
    x.get ⟨i, hlen⟩ < maxOf x := by
  have hne : ¬ (x.get ⟨i, hlen⟩ = maxOf x) := by
    have h3 := @List.not_of_lt_findIdx _ (fun a => decide (a = maxOf x)) x i hi
    simpa [List.get_eq_getElem] using h3
  have hmem : x.get ⟨i, hlen⟩ ∈ x := by
    rw [List.get_eq_getElem]
    exact List.getElem_mem _
  exact lt_of_le_of_ne (le_maxOf hmem) hne

theorem make_one_hot_length (x : List ℚ) : (make_one_hot x).length = x.length := by
  simp [make_one_hot]

theorem sum_map_mul_zero (l : List ℚ) : (l.map (fun a => a * 0)).sum = 0 := by
  induction l with
  | nil => simp
  | cons a as ih => simp [ih]

theorem sum_replicate_set_one : ∀ (n i : ℕ), i < n →
    ((List.replicate n (0 : ℚ)).set i 1).sum = 1 := by
  intro n
  induction n with
  | zero => intro i hi; simp at hi
  | succ m ih =>
    intro i hi
    cases i with
    | zero =>
      rw [List.replicate_succ, List.set_cons_zero, List.sum_cons, List.sum_replicate]
      simp
    | succ j =>
      have hj : j < m := Nat.lt_of_succ_lt_succ hi
      rw [List.replicate_succ, List.set_cons_succ, List.sum_cons, ih j hj]
      norm_num

theorem make_one_hot_sum {x : List ℚ} (h : x ≠ []) : (make_one_hot x).sum = 1 := by
  have := sum_replicate_set_one x.length (argmaxIdx x) (argmaxIdx_lt_length h)
  simpa [make_one_hot] using this

theorem make_one_hot_getD_argmax {x : List ℚ} (h : x ≠ []) :
    (make_one_hot x).getD (argmaxIdx x) 0 = 1 := by
  have hlt : argmaxIdx x < (List.replicate x.length (0 : ℚ)).length := by
    simpa using argmaxIdx_lt_length h
  simp [make_one_hot, List.getD_eq_getElem?_getD, List.getElem?_set_self hlt]

theorem make_one_hot_getD_ne {x : List ℚ} {i : ℕ} (hne : i ≠ argmaxIdx x) :
    (make_one_hot x).getD i 0 = 0 := by
  rw [make_one_hot, List.getD_eq_getElem?_getD, List.getElem?_set_ne (Ne.symm hne)]
  by_cases hi : i < x.length
  · simp [List.getElem?_map, List.getElem?_eq_getElem hi]
  · simp [List.getElem?_eq_none (l := x) (by simpa using Nat.le_of_not_lt hi)]

/-! ## Feature-Type Repair over whole records -/

/-- `np.round` / pandas `.round(0)` with zero decimals: round half to even
(banker's rounding), the IEEE default that numpy implements. -/
def roundHalfEven (q : ℚ) : ℤ :=
  if q - ⌊q⌋ < 1 / 2 then ⌊q⌋
  else if 1 / 2 < q - ⌊q⌋ then ⌊q⌋ + 1
  else if ⌊q⌋ % 2 = 0 then ⌊q⌋ else ⌊q⌋ + 1

/-- `np.clip(x, 0, 1)`. -/
def clip01 (a : ℚ) : ℚ := min 1 (max 0 a)

/-- `row[one_hot_list]`: the values of one one-hot group inside a record. -/
def extractCols (group : List ℕ) (row : Vec) : List ℚ :=
  group.map (fun j => row.getD j 0)

/-- `row[x_one_hot.index] = x_one_hot.values`: write repaired group values back
into the record at the group's column positions. -/
def writeBack : List ℕ → List ℚ → Vec → Vec
  | j :: js, v :: vs, row => writeBack js vs (row.set j v)
  | _, _, row => row

/-- One inner-loop iteration of the one-hot repair: collapse one group of one
record (`x = row[one_hot_list]; x_one_hot = make_one_hot(x);
row[x_one_hot.index] = x_one_hot.values`). -/
def applyOneHotGroup (group : List ℕ) (row : Vec) : Vec :=
  writeBack group (make_one_hot (extractCols group row)) row

/-- A pandas column assignment `synth_df[col] = f(synth_df[col])` applied to
every record. -/
def updateCol (f : ℚ → ℚ) (j : ℕ) (records : List Vec) : List Vec :=
  records.map (fun row => row.set j (f (row.getD j 0)))

/-- The one-hot repair loop: for each declared group, for each record, collapse
that group of that record. -/
def oneHotRepair (groups : List (List ℕ)) (records : List Vec) : List Vec :=
  groups.foldl (fun recs g => recs.map (applyOneHotGroup g)) records

/-- Integer-column repair: `synth_df[col] = synth_df[col].round(0)`. -/
def integerRepair (intCols : List ℕ) (records : List Vec) : List Vec :=
  intCols.foldl
    (fun recs j => updateCol (fun a => (roundHalfEven a : ℚ)) j recs) records

/-- Binary-column repair: `synth_df[col] = np.clip(synth_df[col],0,1).round(0)`. -/
def binaryRepair (binCols : List ℕ) (records : List Vec) : List Vec :=
  binCols.foldl
    (fun recs j => updateCol (fun a => (roundHalfEven (clip01 a) : ℚ)) j recs) records

/-- The whole Feature-Type Repair stage, in the notebook's order: one-hot
groups, then integer columns, then binary columns. -/
def featureTypeRepair (groups : List (List ℕ)) (intCols binCols : List ℕ)
    (records : List Vec) : List Vec :=
  binaryRepair binCols (integerRepair intCols (oneHotRepair groups records))

/-- The same stage expressed as a transformation of a single record. -/
def repairRecord (groups : List (List ℕ)) (intCols binCols : List ℕ)
    (row : Vec) : Vec :=
  binCols.foldl (fun r j => r.set j ((roundHalfEven (clip01 (r.getD j 0)) : ℚ)))
    (intCols.foldl (fun r j => r.set j ((roundHalfEven (r.getD j 0) : ℚ)))
      (groups.foldl (fun r g => applyOneHotGroup g r) row))

theorem foldl_map_comm {α β : Type} (F : β → α → α) (gs : List β) (records : List α) :
    gs.foldl (fun recs g => recs.map (F g)) records
      = records.map (fun r => gs.foldl (fun r g => F g r) r) := by
  induction gs generalizing records with
  | nil => simp
  | cons g gs ih =>
    simp only [List.foldl_cons]
    rw [ih, List.map_map]
    rfl

/-- The record-wise and the loop-wise presentations of the repair stage agree:
the stage is elementwise and order-independent across records. -/
theorem featureTypeRepair_eq_map (groups : List (List ℕ)) (intCols binCols : List ℕ)
    (records : List Vec) :
    featureTypeRepair groups intCols binCols records
      = records.map (repairRecord groups intCols binCols) := by
  unfold featureTypeRepair binaryRepair integerRepair oneHotRepair updateCol repairRecord
  rw [foldl_map_comm, foldl_map_comm, foldl_map_comm, List.map_map, List.map_map]
  rfl

theorem getD_set_ne (row : Vec) {j k : ℕ} (v : ℚ) (h : j ≠ k) :
    (row.set j v).getD k 0 = row.getD k 0 := by
  simp [List.getD_eq_getElem?_getD, List.getElem?_set_ne h]

theorem getD_set_self (row : Vec) {j : ℕ} (v : ℚ) (h : j < row.length) :
    (row.set j v).getD j 0 = v := by
  simp [List.getD_eq_getElem?_getD, List.getElem?_set_self h]

theorem writeBack_length : ∀ (js : List ℕ) (vs : List ℚ) (row : Vec),
    (writeBack js vs row).length = row.length
  | [], _, row => rfl
  | _ :: _, [], row => rfl
  | j :: js, v :: vs, row => by
    rw [writeBack, writeBack_length js vs (row.set j v), List.length_set]

theorem writeBack_getD_not_mem : ∀ (js : List ℕ) (vs : List ℚ) (row : Vec) (k : ℕ),
    k ∉ js → (writeBack js vs row).getD k 0 = row.getD k 0
  | [], _, row, k, _ => rfl
  | _ :: _, [], row, k, _ => rfl
  | j :: js, v :: vs, row, k, hk => by
    rw [writeBack, writeBack_getD_not_mem js vs _ k (fun h => hk (List.mem_cons_of_mem _ h)),
      getD_set_ne row v (fun h => hk (by rw [← h]; exact List.mem_cons_self _ _))]

theorem extractCols_writeBack : ∀ (g : List ℕ) (vs : List ℚ) (row : Vec),
    g.Nodup → vs.length = g.length → (∀ j ∈ g, j < row.length) →
    extractCols g (writeBack g vs row) = vs
  | [], [], row, _, _, _ => rfl
  | [], _ :: _, row, _, hlen, _ => by simp at hlen
  | _ :: _, [], row, _, hlen, _ => by simp at hlen
  | j :: js, v :: vs, row, hnodup, hlen, hbound => by
    have hj : j ∉ js := (List.nodup_cons.mp hnodup).1
    have hlen' : vs.length = js.length := by simpa using hlen
    have hjrow : j < row.length := hbound j (List.mem_cons_self _ _)
    rw [writeBack, extractCols, List.map_cons]
    rw [writeBack_getD_not_mem js vs _ j hj, getD_set_self row v hjrow]
    have htail : extractCols js (writeBack js vs (row.set j v)) = vs :=
      extractCols_writeBack js vs (row.set j v) (List.nodup_cons.mp hnodup).2 hlen'
        (fun i hi => by
          rw [List.length_set]; exact hbound i (List.mem_cons_of_mem _ hi))
    simpa [extractCols] using htail

theorem applyOneHotGroup_length (g : List ℕ) (row : Vec) :
    (applyOneHotGroup g row).length = row.length :=
  writeBack_length _ _ _

theorem applyOneHotGroup_getD_not_mem (g : List ℕ) (row : Vec) {k : ℕ} (hk : k ∉ g) :
    (applyOneHotGroup g row).getD k 0 = row.getD k 0 :=
  writeBack_getD_not_mem _ _ _ _ hk

/-- Collapsing a group reads and writes only that group's columns. -/
theorem extractCols_applyOneHotGroup_self (g : List ℕ) (row : Vec)
    (hnodup : g.Nodup) (hbound : ∀ j ∈ g, j < row.length) :
    extractCols g (applyOneHotGroup g row) = make_one_hot (extractCols g row) :=
  extractCols_writeBack g _ row hnodup
    (by rw [make_one_hot_length]; simp [extractCols]) hbound

theorem extractCols_congr {g : List ℕ} {r1 r2 : Vec}
    (h : ∀ j ∈ g, r1.getD j 0 = r2.getD j 0) : extractCols g r1 = extractCols g r2 :=
  List.map_congr_left h

theorem foldl_oneHot_getD_frame (gs : List (List ℕ)) (row : Vec) (k : ℕ)
    (h : ∀ g ∈ gs, k ∉ g) :
    (gs.foldl (fun r g => applyOneHotGroup g r) row).getD k 0 = row.getD k 0 := by
  induction gs generalizing row with
  | nil => rfl
  | cons g0 gs ih =>
    rw [List.foldl_cons, ih _ (fun g hg => h g (List.mem_cons_of_mem _ hg)),
      applyOneHotGroup_getD_not_mem g0 row (h g0 (List.mem_cons_self _ _))]

theorem foldl_oneHot_length (gs : List (List ℕ)) (row : Vec) :
    (gs.foldl (fun r g => applyOneHotGroup g r) row).length = row.length := by
  induction gs generalizing row with
  | nil => rfl
  | cons g0 gs ih => rw [List.foldl_cons, ih, applyOneHotGroup_length]

theorem extract_foldl_oneHot_frame (gs : List (List ℕ)) (g : List ℕ) (row : Vec)
    (h : ∀ g2 ∈ gs, ∀ j ∈ g, j ∉ g2) :
    extractCols g (gs.foldl (fun r h2 => applyOneHotGroup h2 r) row) = extractCols g row :=
  extractCols_congr (fun j hj =>
    foldl_oneHot_getD_frame gs row j (fun g2 hg2 => h g2 hg2 j hj))

/-- After the one-hot loop has run over all groups, each group of each record
holds `make_one_hot` of that group's raw values (groups being disjoint, the
other iterations leave the group untouched). -/
theorem extract_foldl_oneHot (groups : List (List ℕ)) (g : List ℕ) (row : Vec)
    (hmem : g ∈ groups) (hnodup : g.Nodup)
    (hdisj : groups.Pairwise (fun g1 g2 => ∀ j ∈ g1, j ∉ g2))
    (hbound : ∀ gg ∈ groups, ∀ j ∈ gg, j < row.length) :
    extractCols g (groups.foldl (fun r h => applyOneHotGroup h r) row)
      = make_one_hot (extractCols g row) := by
  induction groups generalizing row with
  | nil => cases hmem
  | cons g0 gs ih =>
    rw [List.foldl_cons]
    rcases List.mem_cons.mp hmem with rfl | hmem2
    · have hdisj2 : ∀ g2 ∈ gs, ∀ j ∈ g, j ∉ g2 := by
        intro g2 hg2 j hj
        exact (List.pairwise_cons.mp hdisj).1 g2 hg2 j hj
      rw [extract_foldl_oneHot_frame gs g _ hdisj2,
        extractCols_applyOneHotGroup_self g row hnodup
          (hbound g (List.mem_cons_self _ _))]
    · have hhead : ∀ j ∈ g, j ∉ g0 := by
        intro j hj hj0
        exact (List.pairwise_cons.mp hdisj).1 g hmem2 j hj0 hj
      have hfr : extractCols g (applyOneHotGroup g0 row) = extractCols g row :=
        extractCols_congr (fun j hj => applyOneHotGroup_getD_not_mem g0 row (hhead j hj))
      rw [ih _ hmem2 (List.pairwise_cons.mp hdisj).2
        (fun gg hgg j hj => by
          rw [applyOneHotGroup_length]
          exact hbound gg (List.mem_cons_of_mem _ hgg) j hj), hfr]

theorem foldl_setCol_getD_frame (F : ℚ → ℚ) (cols : List ℕ) (row : Vec) (k : ℕ)
    (h : k ∉ cols) :
    (cols.foldl (fun r j => r.set j (F (r.getD j 0))) row).getD k 0 = row.getD k 0 := by
  induction cols generalizing row with
  | nil => rfl
  | cons c cs ih =>
    rw [List.foldl_cons, ih _ (fun hm => h (List.mem_cons_of_mem _ hm)),
      getD_set_ne row _ (fun hck => h (by rw [← hck]; exact List.mem_cons_self _ _))]

theorem extract_foldl_setCol_frame (F : ℚ → ℚ) (cols : List ℕ) (g : List ℕ) (row : Vec)
    (h : ∀ j ∈ g, j ∉ cols) :
    extractCols g (cols.foldl (fun r j => r.set j (F (r.getD j 0))) row)
      = extractCols g row :=
  extractCols_congr (fun j hj => foldl_setCol_getD_frame F cols row j (h j hj))

/-- The repaired record's one-hot group is exactly `make_one_hot` of the raw
group values: integer and binary repairs touch disjoint columns. -/
theorem extract_repairRecord (groups : List (List ℕ)) (intCols binCols : List ℕ)
    (g : List ℕ) (row : Vec)
    (hg : g ∈ groups) (hnodup : g.Nodup)
    (hdisj : groups.Pairwise (fun g1 g2 => ∀ j ∈ g1, j ∉ g2))
    (hbound : ∀ gg ∈ groups, ∀ j ∈ gg, j < row.length)
    (hint : ∀ j ∈ g, j ∉ intCols) (hbin : ∀ j ∈ g, j ∉ binCols) :
    extractCols g (repairRecord groups intCols binCols row)
      = make_one_hot (extractCols g row) := by
  unfold repairRecord
  rw [extract_foldl_setCol_frame (fun a => (roundHalfEven (clip01 a) : ℚ)) binCols g _ hbin,
    extract_foldl_setCol_frame (fun a => (roundHalfEven a : ℚ)) intCols g _ hint,
    extract_foldl_oneHot groups g row hg hnodup hdisj hbound]

/-- Demonstration inputs for the repair stage: two one-hot groups
(columns 0–1 and 2–3), one integer column (4), one binary column (5). -/
def c1groups : List (List ℕ) := [[0, 1], [2, 3]]

/-- A raw interpolated record for the demonstration schema; columns 2 and 3 tie. -/
def c1row : Vec := [1 / 4, 3 / 4, 1 / 2, 1 / 2, 7 / 2, 2 / 5]

/-- C1: for every record produced by the Feature-Type Repair stage and every
declared one-hot group, the repaired record stored in the synthetic dataset has
exactly one column of that group equal to 1 and all other columns of the group
equal to 0 (so the group sums to exactly 1); the chosen column is the one with
the maximum raw interpolated value, ties broken in favour of the first column
in declared order (`np.argmax` returns the first index attaining the maximum). -/
theorem one_hot_repair_collapses_groups
    (groups : List (List ℕ)) (intCols binCols : List ℕ) (records : List Vec)
    (g : List ℕ) (row : Vec)
    (hg : g ∈ groups) (hrow : row ∈ records)
    (hne : g ≠ []) (hnodup : g.Nodup)
    (hdisj : groups.Pairwise (fun g1 g2 => ∀ j ∈ g1, j ∉ g2))
    (hbound : ∀ gg ∈ groups, ∀ j ∈ gg, j < row.length)
    (hint : ∀ j ∈ g, j ∉ intCols) (hbin : ∀ j ∈ g, j ∉ binCols) :
    repairRecord groups intCols binCols row
        ∈ featureTypeRepair groups intCols binCols records ∧
    extractCols g (repairRecord groups intCols binCols row)
        = make_one_hot (extractCols g row) ∧
    (extractCols g (repairRecord groups intCols binCols row)).sum = 1 ∧
    (extractCols g (repairRecord groups intCols binCols row)).getD
        (argmaxIdx (extractCols g row)) 0 = 1 ∧
    (∀ i, i < g.length → i ≠ argmaxIdx (extractCols g row) →
      (extractCols g (repairRecord groups intCols binCols row)).getD i 0 = 0) ∧
    (extractCols g row).getD (argmaxIdx (extractCols g row)) 0
        = maxOf (extractCols g row) ∧
    (∀ i, i < argmaxIdx (extractCols g row) →
      (extractCols g row).getD i 0 < maxOf (extractCols g row)) := by
  have hxne : extractCols g row ≠ [] := by
    cases g with
    | nil => exact absurd rfl hne
    | cons j js => simp [extractCols]
  have heq := extract_repairRecord groups intCols binCols g row hg hnodup hdisj
    hbound hint hbin
  refine ⟨?_, heq, ?_, ?_, ?_, ?_, ?_⟩
  · rw [featureTypeRepair_eq_map]
    exact List.mem_map_of_mem _ hrow
  · rw [heq]; exact make_one_hot_sum hxne
  · rw [heq]; exact make_one_hot_getD_argmax hxne
  · intro i hi hne2
    rw [heq]; exact make_one_hot_getD_ne hne2
  · have hlt := argmaxIdx_lt_length hxne
    rw [List.getD_eq_getElem _ _ hlt]
    have := getElem_argmaxIdx hxne
    rwa [List.get_eq_getElem] at this
  · intro i hi
    have hlt : i < (extractCols g row).length :=
      lt_of_lt_of_le hi (List.findIdx_le_length _)
    rw [List.getD_eq_getElem _ _ hlt]
    have := getElem_lt_argmaxIdx hi hlt
    rwa [List.get_eq_getElem] at this

/-- Concrete instance of `one_hot_repair_collapses_groups` on the
demonstration schema (group `[2, 3]`, whose raw values tie at `1/2`). -/
theorem one_hot_repair_collapses_groups_witness :
    repairRecord c1groups [4] [5] c1row
        ∈ featureTypeRepair c1groups [4] [5] [c1row] ∧
    extractCols [2, 3] (repairRecord c1groups [4] [5] c1row)
        = make_one_hot (extractCols [2, 3] c1row) ∧
    (extractCols [2, 3] (repairRecord c1groups [4] [5] c1row)).sum = 1 ∧
    (extractCols [2, 3] (repairRecord c1groups [4] [5] c1row)).getD
        (argmaxIdx (extractCols [2, 3] c1row)) 0 = 1 ∧
    (extractCols [2, 3] (repairRecord c1groups [4] [5] c1row)).getD 1 0 = 0 ∧
    (extractCols [2, 3] c1row).getD (argmaxIdx (extractCols [2, 3] c1row)) 0
        = maxOf (extractCols [2, 3] c1row) := by
  obtain ⟨h1, h2, h3, h4, h5, h6, _⟩ :=
    one_hot_repair_collapses_groups c1groups [4] [5] [c1row] [2, 3] c1row
      (by decide) (List.mem_cons_self _ _) (by decide) (by decide) (by decide)
      (by decide) (by decide) (by decide)
  exact ⟨h1, h2, h3, h4, h5 1 (by decide) (by decide), h6⟩

/-! ## Aliasing behaviour of make_one_hot -/

/-- A heap of Python array objects: addresses to numeric vectors. -/
def Store : Type := ℕ → List ℚ

/-- `make_one_hot` as executed on a mutable argument: `x *= 0.0` and
`x[highest] = 1.0` update the argument object in place, and `return x` returns
that same object, not a copy.  The pair is (returned address, updated heap). -/
def make_one_hot_ref (a : ℕ) (σ : Store) : ℕ × Store :=
  (a, fun b => if b = a then make_one_hot (σ a) else σ b)

/-- A concrete heap holding the vector `[1/2, 3, 3]` at every address. -/
def c10store : Store := fun _ => [1 / 2, 3, 3]

/-- C10: `make_one_hot` mutates its argument in place: after the call the
argument object itself holds the one-hot result (1 at the first position
attaining the original maximum, 0 at every other position), the returned value
is that same object, and no other object is touched — the caller's original
values are destroyed by the call. -/
theorem make_one_hot_mutates_in_place (a : ℕ) (σ : Store) (hne : σ a ≠ []) :
    (make_one_hot_ref a σ).1 = a ∧
    (make_one_hot_ref a σ).2 a = make_one_hot (σ a) ∧
    ((make_one_hot_ref a σ).2 a).getD (argmaxIdx (σ a)) 0 = 1 ∧
    (∀ i, i ≠ argmaxIdx (σ a) → ((make_one_hot_ref a σ).2 a).getD i 0 = 0) ∧
    (∀ b, b ≠ a → (make_one_hot_ref a σ).2 b = σ b) := by
  have hobj : (make_one_hot_ref a σ).2 a = make_one_hot (σ a) := by
    simp [make_one_hot_ref]
  refine ⟨rfl, hobj, ?_, ?_, ?_⟩
  · rw [hobj]; exact make_one_hot_getD_argmax hne
  · intro i hi
    rw [hobj]; exact make_one_hot_getD_ne hi
  · intro b hb
    simp [make_one_hot_ref, hb]

/-- Concrete instance of `make_one_hot_mutates_in_place`: the object at
address 0 ends up holding `[0, 1, 0]` (first of the tied maxima wins), the
object at the unrelated address 7 is untouched. -/
theorem make_one_hot_mutates_in_place_witness :
    (make_one_hot_ref 0 c10store).1 = 0 ∧
    (make_one_hot_ref 0 c10store).2 0 = make_one_hot (c10store 0) ∧
    ((make_one_hot_ref 0 c10store).2 0).getD (argmaxIdx (c10store 0)) 0 = 1 ∧
    ((make_one_hot_ref 0 c10store).2 0).getD 0 0 = 0 ∧
    (make_one_hot_ref 0 c10store).2 7 = c10store 7 := by
  obtain ⟨h1, h2, h3, h4, h5⟩ := make_one_hot_mutates_in_place 0 c10store (by decide)
  exact ⟨h1, h2, h3, h4 0 (by decide), h5 7 (by decide)⟩

/-! ## Integer-column rounding -/

/-- The rounding rule the spec prescribes for integer columns: round half up
(a fractional part of exactly one half rounds upward), i.e. `⌊q + 1/2⌋`. -/
def roundHalfUpSpec (q : ℚ) : ℤ := ⌊q + 1 / 2⌋

/-- The integer repair as a transformation of a single record. -/
def repairIntRecord (intCols : List ℕ) (row : Vec) : Vec :=
  intCols.foldl (fun r j => r.set j ((roundHalfEven (r.getD j 0) : ℚ))) row

theorem integerRepair_eq_map (intCols : List ℕ) (records : List Vec) :
    integerRepair intCols records = records.map (repairIntRecord intCols) := by
  unfold integerRepair updateCol repairIntRecord
  rw [foldl_map_comm]

theorem foldl_setCol_getD_mem (F : ℚ → ℚ) (cols : List ℕ) (row : Vec) (j : ℕ)
    (hnodup : cols.Nodup) (hj : j ∈ cols) (hb : ∀ i ∈ cols, i < row.length) :
    (cols.foldl (fun r i => r.set i (F (r.getD i 0))) row).getD j 0
      = F (row.getD j 0) := by
  induction cols generalizing row with
  | nil => cases hj
  | cons c cs ih =>
    rw [List.foldl_cons]
    rcases List.mem_cons.mp hj with rfl | hj2
    · have hc : j ∉ cs := (List.nodup_cons.mp hnodup).1
      rw [foldl_setCol_getD_frame F cs _ j hc,
        getD_set_self row _ (hb j (List.mem_cons_self _ _))]
    · have hcj : c ≠ j := by
        intro h
        exact (List.nodup_cons.mp hnodup).1 (h ▸ hj2)
      rw [ih _ (List.nodup_cons.mp hnodup).2 hj2
        (fun i hi => by rw [List.length_set]; exact hb i (List.mem_cons_of_mem _ hi)),
        getD_set_ne row _ hcj]

/-- C7 counterexample: at the value `1/2` the code's `.round(0)` gives `0`
(half to even) whereas the claimed round-half-up rule gives `1`, so the
repaired record differs from what the claim asserts. -/
theorem integer_repair_not_half_up :
    roundHalfEven (1 / 2) = 0 ∧
    roundHalfUpSpec (1 / 2) = 1 ∧
    integerRepair [0] [[(1 / 2 : ℚ)]] = [[(0 : ℚ)]] ∧
    integerRepair [0] [[(1 / 2 : ℚ)]] ≠ [[((roundHalfUpSpec (1 / 2) : ℤ) : ℚ)]] := by
  refine ⟨by decide, by decide, by decide, by decide⟩

/-- C7 amended: for every integer-role column, Feature-Type Repair rounds each
value to the nearest whole number using the round-half-to-even rule (a value
whose fractional part is exactly `1/2` rounds to the even neighbour), applied
consistently to every record. -/
theorem integer_repair_rounds_half_to_even
    (intCols : List ℕ) (records : List Vec) (row : Vec) (j : ℕ)
    (hnodup : intCols.Nodup) (hrow : row ∈ records) (hj : j ∈ intCols)
    (hb : ∀ i ∈ intCols, i < row.length) :
    (∀ q : ℚ, |q - (roundHalfEven q : ℚ)| ≤ 1 / 2) ∧
    (∀ q : ℚ, q - ⌊q⌋ = 1 / 2 → roundHalfEven q % 2 = 0) ∧
    repairIntRecord intCols row ∈ integerRepair intCols records ∧
    (repairIntRecord intCols row).getD j 0 = ((roundHalfEven (row.getD j 0) : ℤ) : ℚ) := by
  refine ⟨?_, ?_, ?_, ?_⟩
  · intro q
    have hfl : (⌊q⌋ : ℚ) ≤ q := Int.floor_le q
    have hfu : q < ⌊q⌋ + 1 := Int.lt_floor_add_one q
    unfold roundHalfEven
    split
    · rename_i h
      rw [abs_of_nonneg (by linarith)]
      linarith
    · split
      · rename_i h1 h2
        push_cast
        rw [abs_of_nonpos (by linarith)]
        linarith [not_lt.mp h1]
      · split
        · rename_i h1 h2 h3
          rw [abs_of_nonneg (by linarith)]
          linarith [not_lt.mp h1]
        · rename_i h1 h2 h3
          push_cast
          rw [abs_of_nonpos (by linarith)]
          linarith [not_lt.mp h2]
  · intro q hq
    unfold roundHalfEven
    rw [if_neg (by rw [hq]; exact lt_irrefl _), if_neg (by rw [hq]; exact lt_irrefl _)]
    split
    · assumption
    · omega
  · rw [integerRepair_eq_map]
    exact List.mem_map_of_mem _ hrow
  · unfold repairIntRecord
    exact foldl_setCol_getD_mem (fun a => ((roundHalfEven a : ℤ) : ℚ)) intCols row j
      hnodup hj hb

/-- Concrete instance of `integer_repair_rounds_half_to_even` at the record
`[1/2]` with integer column 0. -/
theorem integer_repair_rounds_half_to_even_witness :
    |(7 / 4 : ℚ) - (roundHalfEven (7 / 4) : ℚ)| ≤ 1 / 2 ∧
    roundHalfEven (5 / 2) % 2 = 0 ∧
    repairIntRecord [0] [(1 / 2 : ℚ)] ∈ integerRepair [0] [[(1 / 2 : ℚ)]] ∧
    (repairIntRecord [0] [(1 / 2 : ℚ)]).getD 0 0
      = ((roundHalfEven (([(1 / 2 : ℚ)] : Vec).getD 0 0) : ℤ) : ℚ) := by
  obtain ⟨ha, hb, hc, hd⟩ :=
    integer_repair_rounds_half_to_even [0] [[(1 / 2 : ℚ)]] [(1 / 2 : ℚ)] 0
      (by decide) (List.mem_cons_self _ _) (by decide) (by decide)
  exact ⟨ha (7 / 4), hb (5 / 2) (by decide), hc, hd⟩

/-! ## Random draws without replacement (pandas `DataFrame.sample`) -/

/-- The failure modes named by the error-handling design for the pipeline. -/
inductive PipelineError where
  | degenerateFeature
  | insufficientClassSize
  | emptyAfterFilter
  | insufficientSyntheticData
deriving DecidableEq, Repr

/-- Draw `n` elements without replacement: each step removes the chosen
element from the pool.  The stream `r` supplies the raw random numbers; the
choice at each step is the stream value reduced modulo the current pool size. -/
def draw {α : Type} : ℕ → List α → (ℕ → ℕ) → List α
  | 0, _, _ => []
  | _ + 1, [], _ => []
  | n + 1, a :: as, r =>
    (a :: as).getD (r 0 % (a :: as).length) a ::
      draw n ((a :: as).eraseIdx (r 0 % (a :: as).length)) (fun j => r (j + 1))

theorem length_draw {α : Type} :
    ∀ (n : ℕ) (pool : List α) (r : ℕ → ℕ), n ≤ pool.length →
      (draw n pool r).length = n
  | 0, _, _, _ => rfl
  | n + 1, [], _, h => by simp at h
  | n + 1, a :: as, r, h => by
    have hi : r 0 % (a :: as).length < (a :: as).length :=
      Nat.mod_lt _ (by simp)
    rw [draw, List.length_cons, length_draw n _ _ (by
      rw [List.length_eraseIdx_of_lt hi]
      exact Nat.le_sub_one_of_lt h)]

theorem getD_cons_eraseIdx_perm {α : Type} :
    ∀ (l : List α) (i : ℕ) (a : α), i < l.length →
      List.Perm (l.getD i a :: l.eraseIdx i) l
  | [], i, a, h => by simp at h
  | b :: bs, 0, a, _ => by simp
  | b :: bs, i + 1, a, h => by
    have hi : i < bs.length := Nat.lt_of_succ_lt_succ h
    have htail := getD_cons_eraseIdx_perm bs i a hi
    have hstep : (b :: bs).getD (i + 1) a :: (b :: bs).eraseIdx (i + 1)
        = bs.getD i a :: b :: bs.eraseIdx i := by
      simp [List.getD_eq_getElem?_getD]
    rw [hstep]
    exact (List.Perm.swap _ _ _).trans (htail.cons b)

theorem draw_all_perm {α : Type} :
    ∀ (n : ℕ) (pool : List α) (r : ℕ → ℕ), pool.length = n →
      List.Perm (draw n pool r) pool
  | 0, [], _, _ => List.Perm.refl _
  | 0, a :: as, _, h => by simp at h
  | n + 1, [], _, h => by simp at h
  | n + 1, a :: as, r, h => by
    have hi : r 0 % (a :: as).length < (a :: as).length :=
      Nat.mod_lt _ (by simp)
    have hlen : ((a :: as).eraseIdx (r 0 % (a :: as).length)).length = n := by
      rw [List.length_eraseIdx_of_lt hi, h]
      rfl
    exact ((draw_all_perm n _ _ hlen).cons _).trans (getD_cons_eraseIdx_perm _ _ _ hi)

theorem draw_subset {α : Type} :
    ∀ (n : ℕ) (pool : List α) (r : ℕ → ℕ) (x : α), x ∈ draw n pool r → x ∈ pool
  | 0, _, _, _, hx => by cases hx
  | n + 1, [], _, _, hx => by cases hx
  | n + 1, a :: as, r, x, hx => by
    have hi : r 0 % (a :: as).length < (a :: as).length :=
      Nat.mod_lt _ (by simp)
    rcases List.mem_cons.mp hx with rfl | hx2
    · rw [List.getD_eq_getElem _ _ hi]
      exact List.getElem_mem _
    · exact List.eraseIdx_subset _ _ (draw_subset n _ _ x hx2)

/-- `df.sample(frac=1.0)`: a full random shuffle, a permutation of the rows
chosen by the (unseeded) random source. -/
def shuffle {α : Type} (l : List α) (r : ℕ → ℕ) : List α := draw l.length l r

theorem shuffle_perm {α : Type} (l : List α) (r : ℕ → ℕ) :
    List.Perm (shuffle l r) l := draw_all_perm _ _ _ rfl

/-- `df.sample(n)` without replacement: pandas raises `ValueError` when `n`
exceeds the population size, otherwise returns `n` rows drawn without
replacement.  The failure is reported with the error-taxonomy name used by
the pipeline design. -/
def sampleN {α : Type} (pool : List α) (n : ℕ) (r : ℕ → ℕ) :
    Except PipelineError (List α) :=
  if pool.length < n then .error .insufficientSyntheticData
  else .ok (draw n pool r)

/-! ## Synthetic records and the rebalancing stage -/

/-- A row of `synth_df` after novelty annotation: features, class label, and
the two derived columns (squared distance to the nearest real point and that
point's index).  Distances are carried squared, exactly representable in `ℚ`. -/
structure SynthRecord where
  features : Vec
  label : ℕ
  distSq : ℚ
  nearestIdx : ℕ
deriving DecidableEq, Repr

/-- The rebalancing cell: sample the positive-label subset to the positive
target, the negative subset to the negative target, concatenate, and shuffle
(`synth_df[mask].sample(n)` twice, `pd.concat`, `.sample(frac=1.0)`). -/
def rebalance (pool : List SynthRecord) (targetPos targetNeg : ℕ)
    (rPos rNeg rShuf : ℕ → ℕ) : Except PipelineError (List SynthRecord) :=
  match sampleN (pool.filter (fun rec => rec.label == 1)) targetPos rPos with
  | .error e => .error e
  | .ok pos =>
    match sampleN (pool.filter (fun rec => rec.label == 0)) targetNeg rNeg with
    | .error e => .error e
    | .ok neg => .ok (shuffle (pos ++ neg) rShuf)

instance exceptDecEq {ε α : Type} [DecidableEq ε] [DecidableEq α] :
    DecidableEq (Except ε α) := fun a b =>
  match a, b with
  | .error e, .error f =>
    if h : e = f then isTrue (by rw [h])
    else isFalse (fun hh => h (by injection hh))
  | .ok x, .ok y =>
    if h : x = y then isTrue (by rw [h])
    else isFalse (fun hh => h (by injection hh))
  | .error _, .ok _ => isFalse (fun hh => by injection hh)
  | .ok _, .error _ => isFalse (fun hh => by injection hh)

/-- A filtered synthetic pool for exercising the rebalancer: two positive
records, one negative. -/
def c3pool : List SynthRecord :=
  [⟨[1], 1, 4, 0⟩, ⟨[2], 1, 9, 1⟩, ⟨[3], 0, 16, 2⟩]

/-- A fixed stream of raw random numbers. -/
def zeroRand : ℕ → ℕ := fun _ => 0

/-- The output of the rebalancer on the demonstration pool. -/
def c3out : List SynthRecord :=
  ((rebalance c3pool 2 1 zeroRand zeroRand zeroRand).toOption).getD []

/-- C3: the rebalancer fails (with the error the design names
`InsufficientSyntheticDataError`; concretely pandas raises `ValueError`) if and
only if some class's filtered synthetic pool is smaller than that class's
target count; when it succeeds its output contains exactly the target number
of records of each class, every output record drawn (without replacement, by
construction of `draw`) from that class's subset of the pool — never a
silently under-filled or padded result. -/
theorem rebalance_matches_targets_iff
    (pool : List SynthRecord) (targetPos targetNeg : ℕ) (rPos rNeg rShuf : ℕ → ℕ) :
    ((∃ e, rebalance pool targetPos targetNeg rPos rNeg rShuf = .error e) ↔
      (pool.filter (fun rec => rec.label == 1)).length < targetPos ∨
      (pool.filter (fun rec => rec.label == 0)).length < targetNeg) ∧
    (∀ e, rebalance pool targetPos targetNeg rPos rNeg rShuf = .error e →
      e = .insufficientSyntheticData) ∧
    (∀ out, rebalance pool targetPos targetNeg rPos rNeg rShuf = .ok out →
      (out.filter (fun rec => rec.label == 1)).length = targetPos ∧
      (out.filter (fun rec => rec.label == 0)).length = targetNeg ∧
      ∀ rec ∈ out, rec ∈ pool) := by
  by_cases h1 : (pool.filter (fun rec => rec.label == 1)).length < targetPos
  · refine ⟨⟨fun _ => Or.inl h1, fun _ => ?_⟩, fun e he => ?_, fun out hout => ?_⟩
    · exact ⟨.insufficientSyntheticData, by simp [rebalance, sampleN, h1]⟩
    · simp [rebalance, sampleN, h1] at he
      exact he.symm
    · simp [rebalance, sampleN, h1] at hout
  · by_cases h2 : (pool.filter (fun rec => rec.label == 0)).length < targetNeg
    · refine ⟨⟨fun _ => Or.inr h2, fun _ => ?_⟩, fun e he => ?_, fun out hout => ?_⟩
      · exact ⟨.insufficientSyntheticData, by simp [rebalance, sampleN, h1, h2]⟩
      · simp [rebalance, sampleN, h1, h2] at he
        exact he.symm
      · simp [rebalance, sampleN, h1, h2] at hout
    · have hpos := length_draw targetPos (pool.filter (fun rec => rec.label == 1))
        rPos (Nat.le_of_not_lt h1)
      have hneg := length_draw targetNeg (pool.filter (fun rec => rec.label == 0))
        rNeg (Nat.le_of_not_lt h2)
      refine ⟨⟨fun ⟨e, he⟩ => ?_, fun h => (h.elim (absurd · h1) (absurd · h2))⟩,
        fun e he => ?_, fun out hout => ?_⟩
      · simp [rebalance, sampleN, h1, h2] at he
      · simp [rebalance, sampleN, h1, h2] at he
      · have hout2 : out = shuffle
            (draw targetPos (pool.filter (fun rec => rec.label == 1)) rPos ++
              draw targetNeg (pool.filter (fun rec => rec.label == 0)) rNeg) rShuf := by
          simp [rebalance, sampleN, h1, h2] at hout
          exact hout.symm
        have hperm := shuffle_perm
          (draw targetPos (pool.filter (fun rec => rec.label == 1)) rPos ++
            draw targetNeg (pool.filter (fun rec => rec.label == 0)) rNeg) rShuf
        have hposlab : ∀ rec ∈ draw targetPos (pool.filter (fun r2 => r2.label == 1)) rPos,
            rec.label = 1 := by
          intro rec hrec
          have := (List.mem_filter.mp (draw_subset _ _ _ _ hrec)).2
          simpa using this
        have hneglab : ∀ rec ∈ draw targetNeg (pool.filter (fun r2 => r2.label == 0)) rNeg,
            rec.label = 0 := by
          intro rec hrec
          have := (List.mem_filter.mp (draw_subset _ _ _ _ hrec)).2
          simpa using this
        subst hout2
        refine ⟨?_, ?_, ?_⟩
        · have hfp : List.filter (fun rec => rec.label == 1)
              (draw targetPos (pool.filter (fun rec => rec.label == 1)) rPos)
              = draw targetPos (pool.filter (fun rec => rec.label == 1)) rPos :=
            List.filter_eq_self.mpr (fun a ha => by simp [hposlab a ha])
          have hfn : List.filter (fun rec => rec.label == 1)
              (draw targetNeg (pool.filter (fun rec => rec.label == 0)) rNeg) = [] :=
            List.filter_eq_nil_iff.mpr (fun a ha => by simp [hneglab a ha])
          rw [(hperm.filter _).length_eq, List.filter_append, hfp, hfn]
          simp [hpos]
        · have hfp : List.filter (fun rec => rec.label == 0)
              (draw targetPos (pool.filter (fun rec => rec.label == 1)) rPos) = [] :=
            List.filter_eq_nil_iff.mpr (fun a ha => by simp [hposlab a ha])
          have hfn : List.filter (fun rec => rec.label == 0)
              (draw targetNeg (pool.filter (fun rec => rec.label == 0)) rNeg)
              = draw targetNeg (pool.filter (fun rec => rec.label == 0)) rNeg :=
            List.filter_eq_self.mpr (fun a ha => by simp [hneglab a ha])
          rw [(hperm.filter _).length_eq, List.filter_append, hfp, hfn]
          simp [hneg]
        · intro rec hrec
          rcases List.mem_append.mp (hperm.mem_iff.mp hrec) with hm | hm
          · exact (List.mem_filter.mp (draw_subset _ _ _ _ hm)).1
          · exact (List.mem_filter.mp (draw_subset _ _ _ _ hm)).1

/-- Concrete instance of `rebalance_matches_targets_iff`: on the demonstration
pool with targets 2 and 1 the rebalancer succeeds with exactly those counts. -/
theorem rebalance_matches_targets_iff_witness :
    (c3out.filter (fun rec => rec.label == 1)).length = 2 ∧
    (c3out.filter (fun rec => rec.label == 0)).length = 1 := by
  have h := (rebalance_matches_targets_iff c3pool 2 1 zeroRand zeroRand zeroRand).2.2
    c3out (by decide)
  exact ⟨h.1, h.2.1⟩

/-! ## Configuration surface and (non-)reproducibility -/

/-- The parameters the notebook's pipeline actually exposes: per-class raw
oversample counts (`number_of_samples`) and the closest-fraction proportion
(`proportion_to_remove`).  There is no random-seed field: `SMOTE(...)` is
instantiated without `random_state` and every `.sample(...)` call omits
`random_state`, so all random choices come from the ambient global source. -/
structure PipelineConfig where
  number_of_samples : ℕ × ℕ
  proportion_to_remove : ℚ
deriving DecidableEq, Repr

/-- The final `synth_df = synth_df.sample(frac=1.0)` shuffle as a run of the
pipeline tail: the configuration is passed but contains nothing that
determines the draw; the shuffle consumes the ambient random stream. -/
def finalShuffleRun (cfg : PipelineConfig) (records : List SynthRecord)
    (ambient : ℕ → ℕ) : List SynthRecord :=
  shuffle records ambient

/-- The notebook's configuration values: double each class count, remove a
tenth. -/
def c5config : PipelineConfig := ⟨(200, 20), 1 / 10⟩

/-- Two distinct annotated records. -/
def c5records : List SynthRecord := [⟨[0], 0, 1, 0⟩, ⟨[1], 1, 4, 1⟩]

/-- A second stream of raw random numbers, differing from `zeroRand`. -/
def oneRand : ℕ → ℕ := fun _ => 1

/-- C5 counterexample: two runs with identical inputs and identical exposed
configuration produce different outputs when the ambient random state differs,
so fixing "the seed" through the code's configuration surface is impossible —
no seedable random source is exposed (`SMOTE()` and `.sample()` take their
randomness from the global state). -/
theorem pipeline_not_seed_reproducible :
    finalShuffleRun c5config c5records zeroRand
      ≠ finalShuffleRun c5config c5records oneRand := by
  decide

/-- C5 amended: the pipeline output is a deterministic function of its inputs
*together with the sequence of ambient random draws* — identical draw streams
give identical output whatever the configuration — but the configuration
surface contains no seed, and there exist two runs with the same inputs and
configuration whose outputs differ. -/
theorem pipeline_deterministic_only_in_ambient_stream :
    (∀ (cfg cfg2 : PipelineConfig) (records : List SynthRecord) (f g : ℕ → ℕ),
      (∀ n, f n = g n) →
      finalShuffleRun cfg records f = finalShuffleRun cfg2 records g) ∧
    (∃ f g : ℕ → ℕ,
      finalShuffleRun c5config c5records f ≠ finalShuffleRun c5config c5records g) := by
  constructor
  · intro cfg cfg2 records f g hfg
    have : f = g := funext hfg
    rw [finalShuffleRun, finalShuffleRun, this]
  · exact ⟨zeroRand, oneRand, by decide⟩

/-- Concrete instance of `pipeline_deterministic_only_in_ambient_stream`:
equal draw streams reproduce the run even across different configurations. -/
theorem pipeline_deterministic_only_in_ambient_stream_witness :
    finalShuffleRun c5config c5records zeroRand
      = finalShuffleRun ⟨(1, 1), 1 / 2⟩ c5records zeroRand :=
  (pipeline_deterministic_only_in_ambient_stream).1 c5config ⟨(1, 1), 1 / 2⟩
    c5records zeroRand zeroRand (fun _ => rfl)

/-! ## Novelty filter: identity removal and closest-fraction removal -/

/-- The identity threshold squared: the code compares the Euclidean distance
with `0.001`; on squared distances the equivalent test compares with
`(1/1000)^2`, exact in `ℚ`. -/
def identityThresholdSq : ℚ := (1 / 1000) ^ 2

/-- Minimum of two rationals, written out so that it evaluates. -/
def qmin (a b : ℚ) : ℚ := if b ≤ a then b else a

/-- Minimum of a list of rationals; `0` for `[]`. -/
def minOf : List ℚ → ℚ
  | [] => 0
  | a :: as => as.foldl qmin a

/-- First index attaining the minimum: the index sklearn's 1-NN query reports. -/
def argminIdx (x : List ℚ) : ℕ := x.findIdx (fun a => decide (a = minOf x))

/-- `nn.kneighbors`: squared distance from a synthetic point to its nearest
real point (the real set being train ∪ test, standardised). -/
def nearestRealDistSq (reals : List Vec) (q : Vec) : ℚ :=
  minOf (reals.map (fun p => distSq q p))

/-- `nn.kneighbors`: index of the nearest real point. -/
def nearestRealIdx (reals : List Vec) (q : Vec) : ℕ :=
  argminIdx (reals.map (fun p => distSq q p))

/-- The annotation cells as the code performs them:
`dists, idxs = nn.kneighbors(X_synth_std)` queries the *raw, pre-repair*
`X_synthetic` in generation order, and
`synth_df['distance_to_closest_real'] = list(dists.flatten())` assigns the
resulting plain list *positionally* to `synth_df` — which was already repaired
and shuffled by `sample(frac=1.0)` in the earlier cell.  So the i-th row of
the shuffled frame receives the nearest-real distance of the i-th raw
synthetic point, not the distance of its own features. -/
def annotateRecords (reals : List Vec) (rawSynth : List Vec)
    (rows : List (Vec × ℕ)) : List SynthRecord :=
  List.zipWith
    (fun vl dv =>
      { features := vl.1, label := vl.2, distSq := dv.1, nearestIdx := dv.2 })
    rows
    (rawSynth.map (fun v => (nearestRealDistSq reals v, nearestRealIdx reals v)))

/-- The identity-removal cell: `identical = dist < 0.001;
synth_df = synth_df[identical == False]` (on squared distances here). -/
def removeIdentical (records : List SynthRecord) : List SynthRecord :=
  records.filter (fun rec => !decide (rec.distSq < identityThresholdSq))

/-- `proportion_to_remove = 0.1`. -/
def proportionToRemove : ℚ := 1 / 10

/-- `number_to_keep = int(len * (1 - proportion_to_remove))`; python `int()`
truncates, which is `floor` for these nonnegative values. -/
def numberToKeep (n : ℕ) : ℕ := (⌊(n : ℚ) * (1 - proportionToRemove)⌋).toNat

/-- Insertion into a list sorted descending by distance. -/
def insertDescByDist (a : SynthRecord) : List SynthRecord → List SynthRecord
  | [] => [a]
  | b :: bs => if b.distSq ≤ a.distSq then a :: b :: bs else b :: insertDescByDist a bs

/-- `synth_df.sort_values('distance_to_closest_real', ascending=False)`:
sorting by distance and by squared distance order records identically. -/
def sortDescByDist (l : List SynthRecord) : List SynthRecord :=
  l.foldr insertDescByDist []

/-- Closest-fraction removal and reshuffle: sort descending, keep the top
`number_to_keep` rows (`.head(...)`), then `.sample(frac=1)`. -/
def removeClosest (records : List SynthRecord) (r : ℕ → ℕ) : List SynthRecord :=
  shuffle ((sortDescByDist records).take (numberToKeep records.length)) r

/-- The whole Novelty Filter as run by the notebook: annotate the shuffled
frame `rows` with the distances of the raw generation-order points
`rawSynth`, drop rows whose *stored* distance is below the identity
threshold, drop the closest remaining fraction. -/
def noveltyFilter (reals : List Vec) (rawSynth : List Vec)
    (rows : List (Vec × ℕ)) (r : ℕ → ℕ) : List SynthRecord :=
  removeClosest (removeIdentical (annotateRecords reals rawSynth rows)) r

theorem insertDescByDist_perm (a : SynthRecord) (l : List SynthRecord) :
    List.Perm (insertDescByDist a l) (a :: l) := by
  induction l with
  | nil => exact List.Perm.refl _
  | cons b bs ih =>
    rw [insertDescByDist]
    split
    · exact List.Perm.refl _
    · exact (ih.cons b).trans (List.Perm.swap _ _ _)

theorem sortDescByDist_perm (l : List SynthRecord) :
    List.Perm (sortDescByDist l) l := by
  induction l with
  | nil => exact List.Perm.refl _
  | cons a as ih =>
    exact (insertDescByDist_perm a (sortDescByDist as)).trans (ih.cons a)

/-- The single (standardized) real data point of the failing input. -/
def c4reals : List Vec := [[0]]

/-- The raw synthetic points in generation order: the first coincides with the
real point (squared distance 0), the others sit at squared distances 25, 49. -/
def c4raw : List Vec := [[0], [5], [7]]

/-- The repaired `synth_df` rows after the `sample(frac=1.0)` shuffle of the
repair cell: the shuffle moved the point identical to the real one last. -/
def c4shuffled : List (Vec × ℕ) := [([5], 1), ([7], 0), ([0], 0)]

/-- The record that survives the novelty filter on the failing input: its
features are the real point itself, yet it carries the stored distance 49 of
the raw point `[7]` that sat at its position in generation order. -/
def c4survivor : SynthRecord := ⟨[0], 0, 49, 0⟩

/-- C4: the claim fails on the code, and the spec is clearly the intent — the
identity-removal cell's own comments say it removes the points that are
effectively identical to real data points.  The code evaluated at the failing
input: distances are computed from the raw pre-repair `X_synthetic` in
generation order and list-assigned positionally to the already-shuffled
`synth_df`, so the record whose features equal the real point `[0]` (its own
squared nearest-real distance is 0 < (1/1000)²) carries the stored distance 49
of a different raw point and *survives* the novelty filter, while the row
`[5]` (own squared distance 25) receives the stored distance 0 and is
discarded. -/
theorem novelty_filter_misaligned_annotation :
    annotateRecords c4reals c4raw c4shuffled
      = [⟨[5], 1, 0, 0⟩, ⟨[7], 0, 25, 0⟩, ⟨[0], 0, 49, 0⟩] ∧
    noveltyFilter c4reals c4raw c4shuffled zeroRand = [c4survivor] ∧
    nearestRealDistSq c4reals c4survivor.features = 0 ∧
    nearestRealDistSq c4reals c4survivor.features < identityThresholdSq ∧
    c4survivor.distSq ≠ nearestRealDistSq c4reals c4survivor.features := by
  refine ⟨by decide, by decide, by decide, by decide, by decide⟩

/-! ## Degenerate case: identity filtering removes everything -/

/-- Identity removal as C6 claims it behaves: raise `EmptyAfterFilterError`
instead of returning an empty set.  Stated for comparison with the code's
`removeIdentical`, which has no error channel at all. -/
def removeIdenticalSpec (records : List SynthRecord) :
    Except PipelineError (List SynthRecord) :=
  if (removeIdentical records).isEmpty then .error .emptyAfterFilter
  else .ok (removeIdentical records)

/-- One synthetic row identical to the single real point. -/
def c6rows : List (Vec × ℕ) := [([0], 1)]

/-- The raw generation-order synthetic point behind `c6rows`. -/
def c6raw : List Vec := [[0]]

/-- C6 counterexample: on an input whose every record lies within the identity
threshold, the code's identity removal returns the empty set (its type has no
error channel), while the claimed behaviour is to fail with
`EmptyAfterFilterError`; the whole novelty filter likewise returns `[]`. -/
theorem identity_removal_returns_empty :
    removeIdentical (annotateRecords c4reals c6raw c6rows) = [] ∧
    removeIdenticalSpec (annotateRecords c4reals c6raw c6rows)
      = .error .emptyAfterFilter ∧
    noveltyFilter c4reals c6raw c6rows zeroRand = [] := by
  refine ⟨by decide, by decide, by decide⟩

/-- C6 amended: when identity filtering removes every record, the notebook's
filter silently yields the empty set — no `EmptyAfterFilterError` exists in
the code — and the degenerate case surfaces only downstream, when the
rebalancer cannot draw a positive target from the empty pool and fails
(pandas `ValueError`, the failure the design calls
`InsufficientSyntheticDataError`). -/
theorem identity_removal_empty_propagates
    (reals : List Vec) (rawSynth : List Vec) (rows : List (Vec × ℕ))
    (r rPos rNeg rShuf : ℕ → ℕ) (targetPos targetNeg : ℕ)
    (hall : ∀ rec ∈ annotateRecords reals rawSynth rows,
      rec.distSq < identityThresholdSq)
    (hpos : 0 < targetPos) :
    removeIdentical (annotateRecords reals rawSynth rows) = [] ∧
    noveltyFilter reals rawSynth rows r = [] ∧
    rebalance (noveltyFilter reals rawSynth rows r) targetPos targetNeg
      rPos rNeg rShuf = .error .insufficientSyntheticData := by
  have h1 : removeIdentical (annotateRecords reals rawSynth rows) = [] :=
    List.filter_eq_nil_iff.mpr (fun a ha => by simpa using hall a ha)
  have h2 : noveltyFilter reals rawSynth rows r = [] := by
    rw [noveltyFilter, removeClosest, h1]
    rfl
  refine ⟨h1, h2, ?_⟩
  rw [h2]
  simp [rebalance, sampleN, hpos]

/-- Concrete instance of `identity_removal_empty_propagates` at the degenerate
demonstration input with positive target 1. -/
theorem identity_removal_empty_propagates_witness :
    removeIdentical (annotateRecords c4reals c6raw c6rows) = [] ∧
    noveltyFilter c4reals c6raw c6rows zeroRand = [] ∧
    rebalance (noveltyFilter c4reals c6raw c6rows zeroRand) 1 0
      zeroRand zeroRand zeroRand = .error .insufficientSyntheticData :=
  identity_removal_empty_propagates c4reals c6raw c6rows zeroRand zeroRand
    zeroRand zeroRand 1 0 (by decide) (by decide)

/-! ## Class-wise interpolation sampler (SMOTE) -/

/-- The vectors of one class: `X[y == c]`. -/
def classSubset (X : List Vec) (y : List ℕ) (c : ℕ) : List Vec :=
  ((X.zip y).filter (fun p => p.2 == c)).map (fun p => p.1)

/-- Insertion into a list of indices sorted ascending by a rational key,
key ties broken by original index order. -/
def insertAscByKey (key : ℕ → ℚ) (j : ℕ) : List ℕ → List ℕ
  | [] => [j]
  | i :: is =>
    if key j < key i ∨ (key j = key i ∧ j ≤ i) then j :: i :: is
    else i :: insertAscByKey key j is

/-- Sort indices ascending by key, ties by index order. -/
def sortAscByKey (key : ℕ → ℚ) (l : List ℕ) : List ℕ :=
  l.foldr (insertAscByKey key) []

/-- Modelled from the spec: the k-nearest-neighbour computation inside the
external `imblearn` SMOTE the notebook calls (spec §4.2) — the `k` nearest
same-class neighbours of the base point at index `i`, by Euclidean distance
(equivalently squared distance), ties by original index order; when the class
has at most `k` other points the effective `k` shrinks to all of them. -/
def kNearestIdx (S : List Vec) (i k : ℕ) : List ℕ :=
  (sortAscByKey (fun j => distSq (S.getD i []) (S.getD j []))
    ((List.range S.length).filter (fun j => !(j == i)))).take k

/-- Linear interpolation `p + t * (q - p)`, componentwise. -/
def lerp (p q : Vec) (t : ℚ) : Vec :=
  p.zipWith (fun a b => a + t * (b - a)) q

/-- Modelled from the spec: one SMOTE synthetic point (spec §4.2).  The choice
triple `(b, nb, t)` carries the random base index, the random neighbour slot,
and the random interpolation fraction `t ∈ [0,1)`. -/
def smotePoint (S : List Vec) (k : ℕ) (choice : ℕ × ℕ × ℚ) : Vec :=
  match S with
  | [] => []
  | _ :: _ =>
    let i := choice.1 % S.length
    let neigh := kNearestIdx S i k
    lerp (S.getD i []) (S.getD (neigh.getD (choice.2.1 % neigh.length) 0) [])
      choice.2.2

/-- Modelled from the spec: the generation loop of §4.2 step 2 — `n`
interpolated points for one class, the step-indexed stream `rand` supplying
the random choices.  This loop is reached only through `smoteGenClass` below,
after the class-size validation of §4.2 step 1. -/
def smoteInterpolations (S : List Vec) (k : ℕ) (rand : ℕ → ℕ × ℕ × ℚ) (n : ℕ) :
    List Vec :=
  (List.range n).map (fun step => smotePoint S k (rand step))

/-- Modelled from the spec: per-class SMOTE generation (§4.2).  Step 1: fail
with `InsufficientClassSizeError` when the class has fewer than 2 points —
one cannot interpolate, and the actual `imblearn` call likewise raises there.
Otherwise run the interpolation loop; for `2 ≤ |S| ≤ k` the effective
neighbourhood shrinks to the `|S| - 1` other points (`kNearestIdx` takes at
most that many). -/
def smoteGenClass (S : List Vec) (k : ℕ) (rand : ℕ → ℕ × ℕ × ℚ) (n : ℕ) :
    Except PipelineError (List Vec) :=
  if S.length < 2 then .error .insufficientClassSize
  else .ok (smoteInterpolations S k rand n)

/-- Modelled from the spec and the notebook's own description of the external
SMOTE contract (the original data "fill up the first slots" of each class and
synthetic points fill the remaining slots; the sampling-strategy numbers are
final TOTAL per-class counts): `fit_resample` validates and generates each
class in turn, and on success returns the original `X, y` followed by the
newly generated per-class synthetic points. -/
def smote_fit_resample (X : List Vec) (y : List ℕ) (nClass0 nClass1 k : ℕ)
    (r0 r1 : ℕ → ℕ × ℕ × ℚ) : Except PipelineError (List Vec × List ℕ) :=
  match smoteGenClass (classSubset X y 0) k r0
      (nClass0 - (classSubset X y 0).length) with
  | .error e => .error e
  | .ok g0 =>
    match smoteGenClass (classSubset X y 1) k r1
        (nClass1 - (classSubset X y 1).length) with
    | .error e => .error e
    | .ok g1 =>
      .ok (X ++ (g0 ++ g1),
        y ++ (List.replicate (nClass0 - (classSubset X y 0).length) 0 ++
          List.replicate (nClass1 - (classSubset X y 1).length) 1))

/-- `make_synthetic_data_smote` from the notebook: count the classes
(`np.sum(y==0)`, `np.sum(y==1)`), add the requested numbers to the current
counts, call SMOTE with those totals, then slice `[len(X):]` to keep only the
newly created synthetic points.  A failure of the SMOTE call propagates. -/
def make_synthetic_data_smote (X : List Vec) (y : List ℕ)
    (number_of_samples : ℕ × ℕ) (k : ℕ) (r0 r1 : ℕ → ℕ × ℕ × ℚ) :
    Except PipelineError (List Vec × List ℕ) :=
  match smote_fit_resample X y
      (number_of_samples.1 + y.countP (fun l => l == 0))
      (number_of_samples.2 + y.countP (fun l => l == 1)) k r0 r1 with
  | .error e => .error e
  | .ok res => .ok (res.1.drop X.length, res.2.drop y.length)

theorem length_smoteInterpolations (S : List Vec) (k : ℕ)
    (rand : ℕ → ℕ × ℕ × ℚ) (n : ℕ) :
    (smoteInterpolations S k rand n).length = n := by
  simp [smoteInterpolations]

theorem length_classSubset (X : List Vec) (y : List ℕ) (c : ℕ)
    (hlen : y.length = X.length) :
    (classSubset X y c).length = y.countP (fun l => l == c) := by
  induction X generalizing y with
  | nil =>
    cases y with
    | nil => rfl
    | cons b ys => simp at hlen
  | cons a xs ih =>
    cases y with
    | nil => simp at hlen
    | cons b ys =>
      have hlen2 : ys.length = xs.length := by simpa using hlen
      by_cases hb : b = c
      · simp [classSubset, hb, List.countP_cons]
        have := ih ys hlen2
        simpa [classSubset] using this
      · simp [classSubset, hb, List.countP_cons]
        have := ih ys hlen2
        simpa [classSubset] using this

/-- When either class has fewer than 2 points, the sampler fails with
`InsufficientClassSizeError` instead of returning points (spec §4.2 step 1;
the `imblearn` call raises there too). -/
theorem make_synthetic_data_smote_small_class
    (X : List Vec) (y : List ℕ) (n0 n1 k : ℕ) (r0 r1 : ℕ → ℕ × ℕ × ℚ)
    (h : (classSubset X y 0).length < 2 ∨ (classSubset X y 1).length < 2) :
    make_synthetic_data_smote X y (n0, n1) k r0 r1
      = .error .insufficientClassSize := by
  by_cases h0 : (classSubset X y 0).length < 2
  · simp [make_synthetic_data_smote, smote_fit_resample, smoteGenClass, h0]
  · have h1 : (classSubset X y 1).length < 2 := h.resolve_left h0
    simp [make_synthetic_data_smote, smote_fit_resample, smoteGenClass, h0, h1]

/-- C2: for a labeled dataset `(X, y)` whose classes each hold at least the
two points interpolation needs (otherwise the sampler raises, see
`make_synthetic_data_smote_small_class`) and per-class request `(n0, n1)`,
the interpolation sampler returns exactly `n0 + n1` new (vector, label)
pairs — `n0` labeled 0 and `n1` labeled 1 — and the returned slice consists
exactly of the newly synthesized points: the original rows, which occupy the
first `len(X)` slots of the SMOTE output, are all dropped. -/
theorem make_synthetic_data_smote_counts
    (X : List Vec) (y : List ℕ) (n0 n1 k : ℕ) (r0 r1 : ℕ → ℕ × ℕ × ℚ)
    (hlen : y.length = X.length)
    (hc0 : 2 ≤ (classSubset X y 0).length)
    (hc1 : 2 ≤ (classSubset X y 1).length) :
    make_synthetic_data_smote X y (n0, n1) k r0 r1
      = .ok (smoteInterpolations (classSubset X y 0) k r0 n0 ++
             smoteInterpolations (classSubset X y 1) k r1 n1,
             List.replicate n0 0 ++ List.replicate n1 1) ∧
    (smoteInterpolations (classSubset X y 0) k r0 n0 ++
      smoteInterpolations (classSubset X y 1) k r1 n1).length = n0 + n1 ∧
    (List.replicate n0 0 ++ List.replicate n1 1 : List ℕ).length = n0 + n1 ∧
    (List.replicate n0 0 ++ List.replicate n1 1 : List ℕ).count 0 = n0 ∧
    (List.replicate n0 0 ++ List.replicate n1 1 : List ℕ).count 1 = n1 := by
  have hS0 : (classSubset X y 0).length = y.countP (fun l => l == 0) :=
    length_classSubset X y 0 hlen
  have hS1 : (classSubset X y 1).length = y.countP (fun l => l == 1) :=
    length_classSubset X y 1 hlen
  have h0 : n0 + y.countP (fun l => l == 0) - (classSubset X y 0).length = n0 := by
    rw [hS0]
    omega
  have h1 : n1 + y.countP (fun l => l == 1) - (classSubset X y 1).length = n1 := by
    rw [hS1]
    omega
  have hg0 : smoteGenClass (classSubset X y 0) k r0
      (n0 + y.countP (fun l => l == 0) - (classSubset X y 0).length)
      = .ok (smoteInterpolations (classSubset X y 0) k r0 n0) := by
    rw [h0, smoteGenClass, if_neg (not_lt.mpr hc0)]
  have hg1 : smoteGenClass (classSubset X y 1) k r1
      (n1 + y.countP (fun l => l == 1) - (classSubset X y 1).length)
      = .ok (smoteInterpolations (classSubset X y 1) k r1 n1) := by
    rw [h1, smoteGenClass, if_neg (not_lt.mpr hc1)]
  refine ⟨?_, ?_, ?_, ?_, ?_⟩
  · simp only [make_synthetic_data_smote, smote_fit_resample]
    rw [hg0, hg1, h0, h1]
    show Except.ok
        ((X ++ (smoteInterpolations (classSubset X y 0) k r0 n0 ++
          smoteInterpolations (classSubset X y 1) k r1 n1)).drop X.length,
         (y ++ (List.replicate n0 0 ++ List.replicate n1 1)).drop y.length) = _
    rw [List.drop_left, List.drop_left]
  · rw [List.length_append, length_smoteInterpolations, length_smoteInterpolations]
  · rw [List.length_append, List.length_replicate, List.length_replicate]
  · rw [List.count_append, List.count_replicate_self, List.count_replicate]
    simp
  · rw [List.count_append, List.count_replicate_self, List.count_replicate]
    simp

/-- A small labeled dataset: two points of class 0, two of class 1. -/
def c2X : List Vec := [[0], [1], [10], [11]]

/-- The labels of `c2X`. -/
def c2y : List ℕ := [0, 0, 1, 1]

/-- A fixed stream of SMOTE choices: base 0, neighbour slot 0, fraction 1/2. -/
def c2rand : ℕ → ℕ × ℕ × ℚ := fun _ => (0, 0, 1 / 2)

/-- Concrete instance of `make_synthetic_data_smote_counts`: requesting
`(2, 1)` extra points from the demonstration dataset (both classes of size 2)
succeeds with exactly 3 new pairs, 2 labeled 0 and 1 labeled 1, and nothing
from the original rows. -/
theorem make_synthetic_data_smote_counts_witness :
    make_synthetic_data_smote c2X c2y (2, 1) 1 c2rand c2rand
      = .ok (smoteInterpolations (classSubset c2X c2y 0) 1 c2rand 2 ++
             smoteInterpolations (classSubset c2X c2y 1) 1 c2rand 1,
             List.replicate 2 0 ++ List.replicate 1 1) ∧
    (smoteInterpolations (classSubset c2X c2y 0) 1 c2rand 2 ++
      smoteInterpolations (classSubset c2X c2y 1) 1 c2rand 1).length = 2 + 1 ∧
    (List.replicate 2 0 ++ List.replicate 1 1 : List ℕ).length = 2 + 1 ∧
    (List.replicate 2 0 ++ List.replicate 1 1 : List ℕ).count 0 = 2 ∧
    (List.replicate 2 0 ++ List.replicate 1 1 : List ℕ).count 1 = 1 :=
  make_synthetic_data_smote_counts c2X c2y 2 1 1 c2rand c2rand
    (by decide) (by decide) (by decide)

/-! ## Feature standardizer -/

/-- Arithmetic mean of a list of rationals (0 for `[]`). -/
def meanOf (l : List ℚ) : ℚ := l.sum / l.length

/-- The values of column `j` across a dataset. -/
def colValues (X : List Vec) (j : ℕ) : List ℚ := X.map (fun row => row.getD j 0)

/-- Population variance (`ddof = 0`), as sklearn's `StandardScaler` computes it. -/
def popVariance (l : List ℚ) : ℚ :=
  (l.map (fun a => (a - meanOf l) ^ 2)).sum / l.length

/-- The state of a fitted `StandardScaler`: per-feature mean and variance. -/
structure Scaler where
  means : List ℚ
  variances : List ℚ
deriving DecidableEq, Repr

/-- `sc.fit(X_train)`: per-feature means and variances over the reference set;
the feature count is the length of the first row. -/
def fitScaler (X : List Vec) : Scaler :=
  { means := (List.range (X.headD []).length).map (fun j => meanOf (colValues X j)),
    variances :=
      (List.range (X.headD []).length).map (fun j => popVariance (colValues X j)) }

/-- sklearn's per-feature scale: the square root of the variance, with a zero
variance replaced by 1 (`_handle_zeros_in_scale`), so a constant feature is
shifted but not rescaled.  Real-valued because the scale is a square root. -/
noncomputable def scaleOf (v : ℚ) : ℝ := if v = 0 then 1 else Real.sqrt (v : ℝ)

/-- `sc.transform`: `(x - mean) / scale`, independently per feature, using
only the fitted statistics. -/
noncomputable def transformRow (s : Scaler) (row : Vec) : List ℝ :=
  (List.range s.means.length).map (fun j =>
    ((row.getD j 0 - s.means.getD j 0 : ℚ) : ℝ) / scaleOf (s.variances.getD j 0))

/-- `standardise_data` from the notebook: fit the scaler on the training set
only, apply it to both sets. -/
noncomputable def standardise_data (Xtrain Xtest : List Vec) :
    List (List ℝ) × List (List ℝ) :=
  (Xtrain.map (transformRow (fitScaler Xtrain)),
   Xtest.map (transformRow (fitScaler Xtrain)))

/-- The fit as C8 claims it behaves: fail with `DegenerateFeatureError` when
some feature has zero variance.  Stated for comparison with the code's fit,
which never fails. -/
def fitScalerSpec (X : List Vec) : Except PipelineError Scaler :=
  if 0 ∈ (fitScaler X).variances then .error .degenerateFeature
  else .ok (fitScaler X)

theorem list_sum_nonneg {l : List ℚ} (h : ∀ a ∈ l, 0 ≤ a) : 0 ≤ l.sum := by
  induction l with
  | nil => simp
  | cons b bs ih =>
    rw [List.sum_cons]
    have hb := h b (List.mem_cons_self _ _)
    have hbs := ih (fun a ha => h a (List.mem_cons_of_mem _ ha))
    linarith

theorem eq_mean_of_sum_sq_zero {m : ℚ} :
    ∀ {l : List ℚ}, (l.map (fun a => (a - m) ^ 2)).sum = 0 → ∀ a ∈ l, a = m := by
  intro l
  induction l with
  | nil => intro _ a ha; cases ha
  | cons b bs ih =>
    intro hsum a ha
    rw [List.map_cons, List.sum_cons] at hsum
    have hb : 0 ≤ (b - m) ^ 2 := sq_nonneg _
    have hbs : 0 ≤ (bs.map (fun a => (a - m) ^ 2)).sum :=
      list_sum_nonneg (fun c hc => by
        rcases List.mem_map.mp hc with ⟨d, _, hd⟩
        rw [← hd]; exact sq_nonneg _)
    have hb0 : (b - m) ^ 2 = 0 := by linarith
    have hbs0 : (bs.map (fun a => (a - m) ^ 2)).sum = 0 := by linarith
    rcases List.mem_cons.mp ha with rfl | ha2
    · have hzero : a - m = 0 := sq_eq_zero_iff.mp hb0
      linarith
    · exact ih hbs0 a ha2

/-- All values of a zero-variance (nonempty) column equal the column mean. -/
theorem eq_mean_of_popVariance_zero {l : List ℚ} (hne : l ≠ [])
    (h : popVariance l = 0) : ∀ a ∈ l, a = meanOf l := by
  have hlen : (l.length : ℚ) ≠ 0 :=
    Nat.cast_ne_zero.mpr (Nat.pos_iff_ne_zero.mp (List.length_pos.mpr hne))
  rw [popVariance, div_eq_zero_iff] at h
  rcases h with h | h
  · exact eq_mean_of_sum_sq_zero h
  · exact absurd h hlen

/-- C8 counterexample: fitting the standardizer on a reference set with a
zero-variance feature does not fail — the claimed behaviour would be
`DegenerateFeatureError`, but the code fits means `[3]`, variance `[0]`, and
silently produces a transformed result (the zero std treated as scale 1). -/
theorem standardiser_accepts_zero_variance :
    fitScalerSpec [[3], [3]] = .error .degenerateFeature ∧
    fitScaler [[3], [3]] = ⟨[3], [0]⟩ ∧
    standardise_data [[3], [3]] [[5]] = ([[0], [0]], [[2]]) := by
  have hfit : fitScaler [[3], [3]] = ⟨[3], [0]⟩ := by decide
  refine ⟨by decide, hfit, ?_⟩
  rw [standardise_data, hfit]
  have hrow3 : transformRow ⟨[3], [0]⟩ [3] = [0] := by
    rw [transformRow]
    norm_num [scaleOf, List.range_succ]
  have hrow5 : transformRow ⟨[3], [0]⟩ [5] = [2] := by
    rw [transformRow]
    norm_num [scaleOf, List.range_succ]
  simp [hrow3, hrow5]

/-- Reading the `j`-th entry of a map over `List.range`. -/
theorem getD_map_range {α : Type} (n j : ℕ) (d : α) (f : ℕ → α) (hj : j < n) :
    (((List.range n).map f).getD j d) = f j := by
  rw [List.getD_eq_getElem?_getD, List.getElem?_map, List.getElem?_range hj]
  rfl

/-- C8 amended: fitting the standardizer on a reference set in which some
feature has zero variance succeeds (the code has no error channel); the zero
standard deviation is replaced by scale 1 (`_handle_zeros_in_scale`), so that
feature is shifted but not rescaled and every reference row's standardized
value there is 0 — no division by zero occurs. -/
theorem standardise_zero_variance_noop_scale
    (X : List Vec) (j : ℕ)
    (hne : X ≠ [])
    (hj : j < (X.headD []).length)
    (hvar : (fitScaler X).variances.getD j 0 = 0) :
    scaleOf ((fitScaler X).variances.getD j 0) = 1 ∧
    ∀ row ∈ X, (transformRow (fitScaler X) row).getD j 0 = 0 := by
  have hmlen : (fitScaler X).means.length = (X.headD []).length := by
    simp [fitScaler]
  have hscale : scaleOf ((fitScaler X).variances.getD j 0) = 1 := by
    rw [hvar, scaleOf]
    exact if_pos rfl
  refine ⟨hscale, ?_⟩
  intro row hrow
  have hvget : (fitScaler X).variances.getD j 0 = popVariance (colValues X j) := by
    show (((List.range (X.headD []).length).map
      (fun i => popVariance (colValues X i))).getD j 0) = _
    rw [getD_map_range _ _ _ _ hj]
  have hmget : (fitScaler X).means.getD j 0 = meanOf (colValues X j) := by
    show (((List.range (X.headD []).length).map
      (fun i => meanOf (colValues X i))).getD j 0) = _
    rw [getD_map_range _ _ _ _ hj]
  have hpv : popVariance (colValues X j) = 0 := by rw [← hvget, hvar]
  have hcne : colValues X j ≠ [] := by
    cases X with
    | nil => exact absurd rfl hne
    | cons a as => simp [colValues]
  have hmem : row.getD j 0 ∈ colValues X j := List.mem_map_of_mem _ hrow
  have hrowmean : row.getD j 0 = meanOf (colValues X j) :=
    eq_mean_of_popVariance_zero hcne hpv _ hmem
  rw [transformRow, getD_map_range _ _ _ _ (by rw [hmlen]; exact hj)]
  rw [hmget, hrowmean, hscale, sub_self]
  simp

/-- Concrete instance of `standardise_zero_variance_noop_scale` on the
constant reference set `[[3], [3]]`. -/
theorem standardise_zero_variance_noop_scale_witness :
    scaleOf ((fitScaler [[3], [3]]).variances.getD 0 0) = 1 ∧
    (transformRow (fitScaler [[3], [3]]) [3]).getD 0 0 = 0 := by
  obtain ⟨h1, h2⟩ := standardise_zero_variance_noop_scale [[3], [3]] 0
    (by decide) (by decide) (by decide)
  exact ⟨h1, h2 [3] (List.mem_cons_self _ _)⟩

/-! ## Output column layout of synth_df -/

/-- The name of the distance annotation column the notebook adds. -/
def distColName : String := "distance_to_closest_real"

/-- The name of the nearest-real-index annotation column the notebook adds. -/
def idxColName : String := "closest_X_real_row_index"

/-- Columns of `synth_df` after assembling the features and appending the
label: `pd.concat(..., columns=X_col_names)` then `synth_df[y_label] = y_list`
(assigning a new pandas column appends it after all existing columns). -/
def columnsAfterLabel (xcols : List String) (ylabel : String) : List String :=
  xcols ++ [ylabel]

/-- Columns of the final `synth_df`: after the label, the novelty-annotation
cell appends `distance_to_closest_real` and `closest_X_real_row_index`.
Row filtering, sorting, sampling and concatenation never change the column
list, so these are the columns of the dataset the pipeline ends with. -/
def finalColumns (xcols : List String) (ylabel : String) : List String :=
  columnsAfterLabel xcols ylabel ++ [distColName, idxColName]

/-- C9 counterexample: the final dataset does not consist of the schema
columns with the label last and nothing after it — two annotation columns
follow the label. -/
theorem final_columns_not_schema_plus_label :
    finalColumns ["age"] "stroke" ≠ ["age", "stroke"] ∧
    finalColumns ["age"] "stroke"
      = ["age", "stroke", "distance_to_closest_real", "closest_X_real_row_index"] := by
  refine ⟨by decide, by decide⟩

/-- C9 amended: the final dataset has the input schema columns in input order
with the label appended directly after them, but followed by the two
novelty-annotation columns `distance_to_closest_real` and
`closest_X_real_row_index`; the schema-plus-label layout is the prefix of
length `len(schema) + 1`, not the whole column list. -/
theorem final_columns_schema_label_then_annotations
    (xcols : List String) (ylabel : String) :
    finalColumns xcols ylabel
      = xcols ++ [ylabel] ++ [distColName, idxColName] ∧
    (finalColumns xcols ylabel).take (xcols.length + 1) = xcols ++ [ylabel] := by
  constructor
  · rfl
  · have hlen : (xcols ++ [ylabel]).length = xcols.length + 1 := by simp
    rw [finalColumns, columnsAfterLabel, ← hlen, List.take_left]

end SmoteSynth
